import Mathlib

/-!
Shallow embedding of the spike-encoding logic of `NeuronInterSpikeCodingDemo.py`
and `NeuronLatencyCodingDemo.py`.

Signals are lists of rationals (exact arithmetic standing in for the scripts'
floats); indices are naturals.  The pulse shaper `AP_SinglePulse`, which uses the
exponential function, is embedded over the reals.

The output-construction loop shared by both encoders calls `np.zeros(int(t_remaining))`;
NumPy raises `ValueError` on a negative length, so the loop is embedded as an
`Option`-valued function, `none` modelling the raised exception.
-/

/-- Threshold-crossing loop of `integrate_and_fire`
(`NeuronInterSpikeCodingDemo.py`, lines 57-68): at each index the sample is
added to the running integral unconditionally; when the integral reaches or
exceeds the threshold the index is recorded and the integral reset to `0`.
Returns the recorded indices (the caller prepends the initial `0`). -/
def apOccAux (thr : ℚ) : List ℚ → ℕ → ℚ → List ℕ
  | [], _, _ => []
  | x :: l, i, integralValue =>
    if thr ≤ integralValue + x then i :: apOccAux thr l (i + 1) 0
    else apOccAux thr l (i + 1) (integralValue + x)

/-- The occurrence list `AP_Occurance` built by `integrate_and_fire`:
initialised to `[0]`, then extended by the threshold-crossing loop. -/
def AP_Occurance_IF (informationSig : List ℚ) (thr : ℚ) : List ℕ :=
  0 :: apOccAux thr informationSig 0 0

/-- Threshold-crossing loop of `timeToFirstSpike`
(`NeuronLatencyCodingDemo.py`, lines 79-95): the integral accumulates only
while the current sample is strictly positive and is reset to `0` otherwise;
the threshold test is identical to the integrate-and-fire loop. -/
def ttfsOccAux (thr : ℚ) : List ℚ → ℕ → ℚ → List ℕ
  | [], _, _ => []
  | x :: l, i, integralValue =>
    let integralValue' := if 0 < x then integralValue + x else 0
    if thr ≤ integralValue' then i :: ttfsOccAux thr l (i + 1) 0
    else ttfsOccAux thr l (i + 1) integralValue'

/-- The occurrence list `AP_Occurance` built by `timeToFirstSpike`. -/
def AP_Occurance_TTFS (informationSig : List ℚ) (thr : ℚ) : List ℕ :=
  0 :: ttfsOccAux thr informationSig 0 0

/-- Output-construction loop shared by both encoders
(`NeuronInterSpikeCodingDemo.py` lines 74-87, `NeuronLatencyCodingDemo.py`
lines 101-114).  For each consecutive pair of occurrences it computes
`dT = occ[i+1] - occ[i]`, `t_remaining = dT - AP_Duration`, clamps
`AP_Duration` (not `t_remaining`!) to `0` when negative, then appends
`np.zeros(int(t_remaining))` and one copy of the pulse template.
`np.zeros` of a negative length raises `ValueError`, modelled as `none`. -/
def buildLoop (singlePulse : List ℚ) : List ℕ → ℤ → List ℚ → Option (List ℚ)
  | a :: b :: rest, APDur, ApSig =>
    let dT : ℤ := (b : ℤ) - (a : ℤ)
    let tRem : ℤ := dT - APDur
    let APDur' : ℤ := if APDur < 0 then 0 else APDur
    if tRem < 0 then none
    else buildLoop singlePulse (b :: rest) APDur'
      (ApSig ++ List.replicate tRem.toNat 0 ++ singlePulse)
  | _, _, ApSig => some ApSig

/-- The function `integrate_and_fire` (`NeuronInterSpikeCodingDemo.py`, lines 54-94):
occurrence list, then output construction starting from `[0]`.
The trailing-zero padding step is commented out in this script. -/
def integrate_and_fire (informationSig singlePulse : List ℚ) (APDur : ℤ)
    (thr : ℚ) : Option (List ℚ) :=
  buildLoop singlePulse (AP_Occurance_IF informationSig thr) APDur [0]

/-- Final padding step of `timeToFirstSpike` (`NeuronLatencyCodingDemo.py`,
lines 116-119): if the constructed signal is shorter than the input, pad it
with trailing zeros to the input's length. -/
def padToInput (informationSig ApSig : List ℚ) : List ℚ :=
  if ApSig.length < informationSig.length then
    ApSig ++ List.replicate (informationSig.length - ApSig.length) 0
  else ApSig

/-- The function `timeToFirstSpike` (`NeuronLatencyCodingDemo.py`, lines 76-121):
gated occurrence list, output construction starting from `[0]`, then padding. -/
def timeToFirstSpike (informationSig singlePulse : List ℚ) (APDur : ℤ)
    (thr : ℚ) : Option (List ℚ) :=
  (buildLoop singlePulse (AP_Occurance_TTFS informationSig thr) APDur [0]).map
    (padToInput informationSig)

/-- Gaps between consecutive entries of an occurrence list. -/
def gapsOf (l : List ℕ) : List ℕ :=
  List.zipWith (fun a b => b - a) l l.tail

/-- NumPy's `np.linspace(a, b, n)`: `n` evenly spaced points from `a` to `b`, endpoints
included (for `n = 1` NumPy returns `[a]`, for `n = 0` the empty array). -/
noncomputable def linspace (a b : ℝ) (n : ℕ) : List ℝ :=
  if n = 0 then []
  else if n = 1 then [a]
  else (List.range n).map (fun i : ℕ => a + (b - a) * (i : ℝ) / ((n : ℝ) - 1))

/-- The function `AP_SinglePulse` (`NeuronInterSpikeCodingDemo.py` lines 99-107,
`NeuronLatencyCodingDemo.py` lines 126-135): sample the sum of a positive and a
negative Gaussian lobe, centred at `2` and `3` on the time base
`np.linspace(0, AP_Duration, AP_Duration)`. -/
noncomputable def AP_SinglePulse (APDur : ℕ) (posAmp negAmp posWidth negWidth : ℝ) :
    List ℝ :=
  let AP_timeBase := linspace 0 APDur APDur
  let pos_pulse := AP_timeBase.map
    (fun t => posAmp * Real.exp (-(0.5) * ((t - 2) / posWidth) ^ 2))
  let neg_pulse := AP_timeBase.map
    (fun t => negAmp * Real.exp (-(0.5) * ((t - 3) / negWidth) ^ 2))
  List.zipWith (· + ·) pos_pulse neg_pulse

/-! ### Monotonicity of the occurrence lists -/

lemma apOccAux_mem_le (thr : ℚ) (l : List ℚ) :
    ∀ (i : ℕ) (acc : ℚ) (j : ℕ), j ∈ apOccAux thr l i acc → i ≤ j := by
  induction l with
  | nil => intro i acc j hj; simp [apOccAux] at hj
  | cons x l ih =>
    intro i acc j hj
    simp only [apOccAux] at hj
    split at hj
    · rcases List.mem_cons.mp hj with rfl | hj
      · exact le_refl j
      · exact (Nat.le_succ i).trans (ih (i + 1) 0 j hj)
    · exact (Nat.le_succ i).trans (ih (i + 1) _ j hj)

lemma apOccAux_chain_lt (thr : ℚ) (l : List ℚ) :
    ∀ (i : ℕ) (acc : ℚ), List.Chain' (· < ·) (apOccAux thr l i acc) := by
  induction l with
  | nil => intro i acc; simp [apOccAux]
  | cons x l ih =>
    intro i acc
    simp only [apOccAux]
    split
    · refine List.chain'_cons'.mpr ⟨fun j hj => ?_, ih (i + 1) 0⟩
      exact Nat.lt_of_lt_of_le (Nat.lt_succ_self i)
        (apOccAux_mem_le thr l (i + 1) 0 j (List.mem_of_mem_head? hj))
    · exact ih (i + 1) _

lemma ttfsOccAux_mem_le (thr : ℚ) (l : List ℚ) :
    ∀ (i : ℕ) (acc : ℚ) (j : ℕ), j ∈ ttfsOccAux thr l i acc → i ≤ j := by
  induction l with
  | nil => intro i acc j hj; simp [ttfsOccAux] at hj
  | cons x l ih =>
    intro i acc j hj
    simp only [ttfsOccAux] at hj
    split at hj <;> split at hj
    · rcases List.mem_cons.mp hj with rfl | hj
      · exact le_refl j
      · exact (Nat.le_succ i).trans (ih (i + 1) 0 j hj)
    · exact (Nat.le_succ i).trans (ih (i + 1) _ j hj)
    · rcases List.mem_cons.mp hj with rfl | hj
      · exact le_refl j
      · exact (Nat.le_succ i).trans (ih (i + 1) 0 j hj)
    · exact (Nat.le_succ i).trans (ih (i + 1) _ j hj)

lemma ttfsOccAux_chain_lt (thr : ℚ) (l : List ℚ) :
    ∀ (i : ℕ) (acc : ℚ), List.Chain' (· < ·) (ttfsOccAux thr l i acc) := by
  induction l with
  | nil => intro i acc; simp [ttfsOccAux]
  | cons x l ih =>
    intro i acc
    simp only [ttfsOccAux]
    split <;> split
    · refine List.chain'_cons'.mpr ⟨fun j hj => ?_, ih (i + 1) 0⟩
      exact Nat.lt_of_lt_of_le (Nat.lt_succ_self i)
        (ttfsOccAux_mem_le thr l (i + 1) 0 j (List.mem_of_mem_head? hj))
    · exact ih (i + 1) _
    · refine List.chain'_cons'.mpr ⟨fun j hj => ?_, ih (i + 1) 0⟩
      exact Nat.lt_of_lt_of_le (Nat.lt_succ_self i)
        (ttfsOccAux_mem_le thr l (i + 1) 0 j (List.mem_of_mem_head? hj))
    · exact ih (i + 1) _

lemma gapsOf_pos (l : List ℕ) (hl : List.Chain' (· < ·) l) :
    ∀ g ∈ gapsOf l, 1 ≤ g := by
  induction l with
  | nil => intro g hg; simp [gapsOf] at hg
  | cons a l ih =>
    cases l with
    | nil => intro g hg; simp [gapsOf] at hg
    | cons b l' =>
      intro g hg
      have hab : a < b ∧ List.Chain' (· < ·) (b :: l') := List.chain'_cons.mp hl
      have hg' : g = b - a ∨ g ∈ gapsOf (b :: l') := by
        simpa [gapsOf] using hg
      rcases hg' with rfl | hg'
      · omega
      · exact ih hab.2 g hg'

/-! ### The output-construction loop only ever extends its accumulator -/

lemma buildLoop_extends (pulse : List ℚ) :
    ∀ (occ : List ℕ) (dur : ℤ) (acc res : List ℚ),
      buildLoop pulse occ dur acc = some res → ∃ t, res = acc ++ t := by
  intro occ
  induction occ with
  | nil =>
    intro dur acc res h
    simp only [buildLoop, Option.some.injEq] at h
    exact ⟨[], by simp [h]⟩
  | cons a occ ih =>
    cases occ with
    | nil =>
      intro dur acc res h
      simp only [buildLoop, Option.some.injEq] at h
      exact ⟨[], by simp [h]⟩
    | cons b rest =>
      intro dur acc res h
      simp only [buildLoop] at h
      split at h
      · exact absurd h (by simp)
      · obtain ⟨t, ht⟩ := ih _ _ _ h
        exact ⟨_, by rw [ht, List.append_assoc, List.append_assoc]⟩

/-! ### Claim theorems -/

/-- C6 (amended): for every input signal and threshold, the occurrence list of
either encoder starts at `0` and is non-decreasing, and its recorded tail is
strictly increasing.  (The list as a whole is not strictly increasing — a spike
at index `0` duplicates the initial `0` — and consecutive occurrences need not
be `AP_Duration` apart: the threshold loop never consults `AP_Duration`.) -/
theorem occurrence_lists_monotone (sig : List ℚ) (thr : ℚ) :
    (AP_Occurance_IF sig thr).head? = some 0 ∧
    List.Chain' (· ≤ ·) (AP_Occurance_IF sig thr) ∧
    List.Chain' (· < ·) (AP_Occurance_IF sig thr).tail ∧
    (AP_Occurance_TTFS sig thr).head? = some 0 ∧
    List.Chain' (· ≤ ·) (AP_Occurance_TTFS sig thr) ∧
    List.Chain' (· < ·) (AP_Occurance_TTFS sig thr).tail := by
  refine ⟨rfl, ?_, ?_, rfl, ?_, ?_⟩
  · exact List.chain'_cons'.mpr
      ⟨fun j _ => Nat.zero_le j, (apOccAux_chain_lt thr sig 0 0).imp fun a b => le_of_lt⟩
  · exact apOccAux_chain_lt thr sig 0 0
  · exact List.chain'_cons'.mpr
      ⟨fun j _ => Nat.zero_le j, (ttfsOccAux_chain_lt thr sig 0 0).imp fun a b => le_of_lt⟩
  · exact ttfsOccAux_chain_lt thr sig 0 0

/-- C6 (counterexample): with signal `[1, 1]` and threshold `1`, the
integrate-and-fire occurrence list is `[0, 0, 1]`, which is neither strictly
increasing nor has consecutive entries at least `AP_Duration = 5` apart. -/
theorem occurrence_strict_claim_false :
    AP_Occurance_IF [1, 1] 1 = [0, 0, 1] ∧
    ¬ List.Chain' (fun a b => a < b ∧ 5 ≤ b - a) (AP_Occurance_IF [1, 1] 1) := by
  have h : AP_Occurance_IF [1, 1] 1 = [0, 0, 1] := by
    norm_num [AP_Occurance_IF, apOccAux]
  exact ⟨h, by rw [h]; simp [List.chain'_cons, lt_self_iff_false]⟩

/-- C8 (amended): the integrate-and-fire occurrence list is non-decreasing, and
every gap between consecutive recorded spikes is at least `1`; the gap sequence
is not, however, monotonically increasing in general. -/
theorem integrate_and_fire_gaps (sig : List ℚ) (thr : ℚ) :
    List.Chain' (· ≤ ·) (AP_Occurance_IF sig thr) ∧
    ∀ g ∈ gapsOf ((AP_Occurance_IF sig thr).tail), 1 ≤ g := by
  refine ⟨(occurrence_lists_monotone sig thr).2.1, ?_⟩
  exact gapsOf_pos _ (apOccAux_chain_lt thr sig 0 0)

/-- C8 (witness): on the signal `[0, 0, 5, 5]` with threshold `5` the recorded
spikes are `[2, 3]` and the single recorded gap is `1 ≥ 1`. -/
theorem integrate_and_fire_gaps_witness :
    (1 : ℕ) ∈ gapsOf ((AP_Occurance_IF [0, 0, 5, 5] 5).tail) ∧ (1 : ℕ) ≤ 1 := by
  have h : AP_Occurance_IF [0, 0, 5, 5] 5 = [0, 2, 3] := by
    norm_num [AP_Occurance_IF, apOccAux]
  have hmem : (1 : ℕ) ∈ gapsOf ((AP_Occurance_IF [0, 0, 5, 5] 5).tail) := by
    rw [h]; decide
  exact ⟨hmem, (integrate_and_fire_gaps [0, 0, 5, 5] 5).2 1 hmem⟩

/-- C8 (counterexample): with signal `[0, 0, 5, 5]` and threshold `5` the
occurrence list is `[0, 2, 3]`, whose gap sequence `[2, 1]` decreases. -/
theorem integrate_and_fire_gap_monotone_false :
    gapsOf (AP_Occurance_IF [0, 0, 5, 5] 5) = [2, 1] ∧
    ¬ List.Chain' (· ≤ ·) (gapsOf (AP_Occurance_IF [0, 0, 5, 5] 5)) := by
  have h : AP_Occurance_IF [0, 0, 5, 5] 5 = [0, 2, 3] := by
    norm_num [AP_Occurance_IF, apOccAux]
  rw [h]
  exact ⟨by decide, by norm_num [gapsOf, List.chain'_cons]⟩

/-- C10: whenever either encoder returns an output array, that array is
non-empty and its first sample is `0` (the construction starts from `ApSig = [0]`
and only ever appends; the padding of the gated encoder also only appends). -/
theorem outputs_start_with_zero (sig pulse : List ℚ) (dur : ℤ) (thr : ℚ) :
    (∀ out, integrate_and_fire sig pulse dur thr = some out →
      out ≠ [] ∧ out.head? = some 0) ∧
    (∀ out, timeToFirstSpike sig pulse dur thr = some out →
      out ≠ [] ∧ out.head? = some 0) := by
  constructor
  · intro out h
    obtain ⟨t, rfl⟩ := buildLoop_extends pulse _ _ _ _ h
    simp
  · intro out h
    rw [timeToFirstSpike] at h
    obtain ⟨ap, hap, rfl⟩ := Option.map_eq_some'.mp h
    obtain ⟨t, rfl⟩ := buildLoop_extends pulse _ _ _ _ hap
    rw [padToInput]
    split <;> simp

/-- C10 (witness): on the signal `[0]` with an empty pulse template, both
encoders return `[0]`, which is non-empty and starts with `0`. -/
theorem outputs_start_with_zero_witness :
    (integrate_and_fire [0] [] 0 1 = some [0] ∧
      ([0] : List ℚ) ≠ [] ∧ ([0] : List ℚ).head? = some 0) ∧
    (timeToFirstSpike [0] [] 0 1 = some [0] ∧
      ([0] : List ℚ) ≠ [] ∧ ([0] : List ℚ).head? = some 0) := by
  have h1 : integrate_and_fire [0] [] 0 1 = some [0] := by
    norm_num [integrate_and_fire, AP_Occurance_IF, apOccAux, buildLoop]
  have h2 : timeToFirstSpike [0] [] 0 1 = some [0] := by
    norm_num [timeToFirstSpike, AP_Occurance_TTFS, ttfsOccAux, buildLoop, padToInput]
  exact ⟨⟨h1, (outputs_start_with_zero [0] [] 0 1).1 [0] h1⟩,
         ⟨h2, (outputs_start_with_zero [0] [] 0 1).2 [0] h2⟩⟩

/-- C5: whenever the gated (time-to-first-spike) encoder returns an output
array, its length is at least the input signal's length, thanks to the final
trailing-zero padding step. -/
theorem timeToFirstSpike_length_ge (sig pulse : List ℚ) (dur : ℤ) (thr : ℚ)
    (out : List ℚ) (h : timeToFirstSpike sig pulse dur thr = some out) :
    sig.length ≤ out.length := by
  rw [timeToFirstSpike] at h
  obtain ⟨ap, _, rfl⟩ := Option.map_eq_some'.mp h
  rw [padToInput]
  split
  · simp only [List.length_append, List.length_replicate]
    omega
  · omega

/-- C5 (witness): on the two-sample zero signal the gated encoder returns
`[0, 0]`, whose length `2` is at least the input length `2`. -/
theorem timeToFirstSpike_length_ge_witness :
    timeToFirstSpike [0, 0] (List.replicate 5 1) 5 100 = some [0, 0] ∧
    ([0, 0] : List ℚ).length ≤ ([0, 0] : List ℚ).length := by
  have h : timeToFirstSpike [0, 0] (List.replicate 5 1) 5 100 = some [0, 0] := by
    norm_num [timeToFirstSpike, AP_Occurance_TTFS, ttfsOccAux, buildLoop, padToInput]
  exact ⟨h, timeToFirstSpike_length_ge [0, 0] (List.replicate 5 1) 5 100 [0, 0] h⟩

/-- C4 (amended): if fewer than two occurrences are recorded, the
integrate-and-fire encoder returns exactly `[0]`, while the gated encoder
returns `[0]` padded with trailing zeros up to the input length (an all-zero
array of length `max 1 (length sig)`); in both cases no pulse-template copy is
rendered. -/
theorem few_spikes_output (sig pulse : List ℚ) (dur : ℤ) (thr : ℚ) :
    ((AP_Occurance_IF sig thr).length < 2 →
      integrate_and_fire sig pulse dur thr = some [0]) ∧
    ((AP_Occurance_TTFS sig thr).length < 2 →
      timeToFirstSpike sig pulse dur thr =
        some (0 :: List.replicate (sig.length - 1) 0)) := by
  constructor
  · intro h
    have hocc : apOccAux thr sig 0 0 = [] := by
      rcases hocc : apOccAux thr sig 0 0 with _ | ⟨a, l⟩
      · rfl
      · rw [AP_Occurance_IF, hocc] at h; simp at h; omega
    simp [integrate_and_fire, AP_Occurance_IF, hocc, buildLoop]
  · intro h
    have hocc : ttfsOccAux thr sig 0 0 = [] := by
      rcases hocc : ttfsOccAux thr sig 0 0 with _ | ⟨a, l⟩
      · rfl
      · rw [AP_Occurance_TTFS, hocc] at h; simp at h; omega
    simp only [timeToFirstSpike, AP_Occurance_TTFS, hocc, buildLoop, Option.map_some',
      Option.some.injEq, padToInput]
    split
    · next h1 =>
      have h2 : 1 ≤ sig.length := by simpa using Nat.le_of_lt h1
      simp
    · next h1 =>
      have h2 : sig.length - 1 = 0 := by simp at h1; omega
      simp [h2]

/-- C4 (witness): on the all-zero two-sample signal (threshold `100`, duration
`5`) each encoder records only the implicit occurrence `0`; the
integrate-and-fire output is `[0]` and the gated output is `[0, 0]`. -/
theorem few_spikes_output_witness :
    (AP_Occurance_IF [0, 0] 100).length < 2 ∧
    (AP_Occurance_TTFS [0, 0] 100).length < 2 ∧
    integrate_and_fire [0, 0] (List.replicate 5 1) 5 100 = some [0] ∧
    timeToFirstSpike [0, 0] (List.replicate 5 1) 5 100 =
      some (0 :: List.replicate (([0, 0] : List ℚ).length - 1) 0) := by
  have h1 : (AP_Occurance_IF [0, 0] 100).length < 2 := by
    norm_num [AP_Occurance_IF, apOccAux]
  have h2 : (AP_Occurance_TTFS [0, 0] 100).length < 2 := by
    norm_num [AP_Occurance_TTFS, ttfsOccAux]
  exact ⟨h1, h2,
    (few_spikes_output [0, 0] (List.replicate 5 1) 5 100).1 h1,
    (few_spikes_output [0, 0] (List.replicate 5 1) 5 100).2 h2⟩

/-- C4 (counterexample): the gated encoder's output in the fewer-than-two-spikes
case is not the single-sample array `[0]`: on the all-zero two-sample signal it
returns `[0, 0]` (the zero output is padded to the input length). -/
theorem few_spikes_claim_false :
    (AP_Occurance_TTFS [0, 0] 100).length < 2 ∧
    timeToFirstSpike [0, 0] (List.replicate 5 1) 5 100 = some [0, 0] ∧
    ([0, 0] : List ℚ) ≠ [0] := by
  refine ⟨?_, ?_, by simp⟩
  · norm_num [AP_Occurance_TTFS, ttfsOccAux]
  · norm_num [timeToFirstSpike, AP_Occurance_TTFS, ttfsOccAux, buildLoop, padToInput]

/-- C3 (code bug): the `if AP_Duration < 0` clamp tests the duration instead of
the computed `t_remaining`, so when the gap between two occurrences is smaller
than the pulse duration, `np.zeros(int(t_remaining))` receives a negative
length and raises `ValueError`: the construction is not total.  With sample
values at the threshold (gap `0 < 5 = AP_Duration`) both encoders fail. -/
theorem overlap_gap_raises :
    integrate_and_fire [30, 30] (List.replicate 5 1) 5 30 = none ∧
    timeToFirstSpike [100, 100] (List.replicate 5 1) 5 100 = none := by
  constructor
  · norm_num [integrate_and_fire, AP_Occurance_IF, apOccAux, buildLoop]
  · norm_num [timeToFirstSpike, AP_Occurance_TTFS, ttfsOccAux, buildLoop]

/-- C9: the integrate-and-fire encoder never pads its output (the padding block
is commented out): on a 20-sample signal with recorded spikes at indices `5`
and `10` (threshold `1`, duration `5`) it returns an 11-sample array, strictly
shorter than the input, while the gated encoder pads its output on the same
signal to the full input length `20`. -/
theorem integrate_and_fire_no_padding :
    2 ≤ ((AP_Occurance_IF [0,0,0,0,0,1,0,0,0,0,1,0,0,0,0,0,0,0,0,0] 1).tail).length ∧
    Option.map List.length
      (integrate_and_fire [0,0,0,0,0,1,0,0,0,0,1,0,0,0,0,0,0,0,0,0]
        (List.replicate 5 1) 5 1) = some 11 ∧
    (11 : ℕ) < ([0,0,0,0,0,1,0,0,0,0,1,0,0,0,0,0,0,0,0,0] : List ℚ).length ∧
    Option.map List.length
      (timeToFirstSpike [0,0,0,0,0,1,0,0,0,0,1,0,0,0,0,0,0,0,0,0]
        (List.replicate 5 1) 5 1) =
      some ([0,0,0,0,0,1,0,0,0,0,1,0,0,0,0,0,0,0,0,0] : List ℚ).length := by
    refine ⟨?_, ?_, by norm_num, ?_⟩
    · norm_num [AP_Occurance_IF, apOccAux]
    · norm_num [integrate_and_fire, AP_Occurance_IF, apOccAux, buildLoop]
    · norm_num [timeToFirstSpike, AP_Occurance_TTFS, ttfsOccAux, buildLoop, padToInput]

/-! ### The gated loop only fires on strictly positive samples -/

lemma ttfsOccAux_fires_positive (thr : ℚ) (hthr : 0 < thr) (l : List ℚ) :
    ∀ (i : ℕ) (acc : ℚ) (j : ℕ), j ∈ ttfsOccAux thr l i acc →
      i ≤ j ∧ j - i < l.length ∧ 0 < l.getD (j - i) 0 := by
  induction l with
  | nil => intro i acc j hj; simp [ttfsOccAux] at hj
  | cons x l ih =>
    intro i acc j hj
    simp only [ttfsOccAux] at hj
    split at hj
    next h0 =>
      split at hj
      next hf =>
        rcases List.mem_cons.mp hj with rfl | hj
        · exact ⟨le_refl j, by simp, by simpa using h0⟩
        · obtain ⟨h1, h2, h3⟩ := ih (i + 1) 0 j hj
          have hij : j - i = (j - (i + 1)) + 1 := by omega
          exact ⟨by omega, by simp only [List.length_cons]; omega,
            by rw [hij, List.getD_cons_succ]; exact h3⟩
      next hf =>
        obtain ⟨h1, h2, h3⟩ := ih (i + 1) (acc + x) j hj
        have hij : j - i = (j - (i + 1)) + 1 := by omega
        exact ⟨by omega, by simp only [List.length_cons]; omega,
          by rw [hij, List.getD_cons_succ]; exact h3⟩
    next h0 =>
      split at hj
      next hf => exact absurd (lt_of_lt_of_le hthr hf) (lt_irrefl 0)
      next hf =>
        obtain ⟨h1, h2, h3⟩ := ih (i + 1) 0 j hj
        have hij : j - i = (j - (i + 1)) + 1 := by omega
        exact ⟨by omega, by simp only [List.length_cons]; omega,
          by rw [hij, List.getD_cons_succ]; exact h3⟩

/-- C2: for every input signal and every positive threshold, each spike
recorded by the gated (time-to-first-spike) loop — every occurrence beyond the
implicit initial `0` — lies at a valid index whose sample is strictly positive:
non-positive samples reset the integral to `0 < thr`, so the threshold test
cannot fire there. -/
theorem timeToFirstSpike_no_spike_on_nonpositive (sig : List ℚ) (thr : ℚ)
    (hthr : 0 < thr) :
    ∀ j ∈ (AP_Occurance_TTFS sig thr).tail, j < sig.length ∧ 0 < sig.getD j 0 := by
  intro j hj
  have h := ttfsOccAux_fires_positive thr hthr sig 0 0 j
    (by simpa [AP_Occurance_TTFS] using hj)
  exact ⟨by simpa using h.2.1, by simpa using h.2.2⟩

/-- C2 (witness): with signal `[0, 50, 60]` and threshold `100` the single
recorded spike is at index `2`, where the sample `60` is strictly positive. -/
theorem timeToFirstSpike_no_spike_on_nonpositive_witness :
    (0 : ℚ) < 100 ∧ 2 ∈ (AP_Occurance_TTFS [0, 50, 60] 100).tail ∧
    2 < ([0, 50, 60] : List ℚ).length ∧ 0 < ([0, 50, 60] : List ℚ).getD 2 0 := by
  have hmem : 2 ∈ (AP_Occurance_TTFS [0, 50, 60] 100).tail := by
    norm_num [AP_Occurance_TTFS, ttfsOccAux]
  refine ⟨by norm_num, hmem, ?_⟩
  exact timeToFirstSpike_no_spike_on_nonpositive [0, 50, 60] 100 (by norm_num) 2 hmem

/-! ### Gap sums of the integrate-and-fire occurrence list -/

/-- Sum of the first `n` samples of a signal. -/
def prefSum (sig : List ℚ) (n : ℕ) : ℚ := (sig.take n).sum

/-- Sum of the samples of `sig` at indices `a, a+1, …, b-1`. -/
def sumFromTo (sig : List ℚ) (a b : ℕ) : ℚ := ((sig.take b).drop a).sum

lemma sumFromTo_eq (sig : List ℚ) (a b : ℕ) (h : a ≤ b) :
    sumFromTo sig a b = prefSum sig b - prefSum sig a := by
  have h1 : (sig.take b).take a = sig.take a := by
    rw [List.take_take, min_eq_left h]
  have h2 : prefSum sig b = prefSum sig a + sumFromTo sig a b := by
    rw [prefSum, prefSum, sumFromTo, ← List.sum_append, h1.symm, List.take_append_drop]
  linarith

lemma apOccAux_gap_sums (sig : List ℚ) (thr : ℚ) (hthr : 0 < thr) (l : List ℚ) :
    ∀ (i r : ℕ) (acc : ℚ), sig.drop i = l → r ≤ i →
      acc = prefSum sig i - prefSum sig r → acc < thr →
      (∀ b ∈ (apOccAux thr l i acc).head?,
        i ≤ b ∧ thr ≤ prefSum sig (b + 1) - prefSum sig r ∧
          prefSum sig b - prefSum sig r < thr) ∧
      List.Chain' (fun a b => a < b ∧
          thr ≤ prefSum sig (b + 1) - prefSum sig (a + 1) ∧
          prefSum sig b - prefSum sig (a + 1) < thr)
        (apOccAux thr l i acc) := by
  induction l with
  | nil =>
    intro i r acc _ _ _ _
    simp [apOccAux]
  | cons x l ih =>
    intro i r acc hd hr hacc hlt
    have hlen := congrArg List.length hd
    simp only [List.length_drop, List.length_cons] at hlen
    have hi : i < sig.length := by omega
    have hget : sig[i] = x := by
      have h1 : sig[i]? = some x := by rw [← List.head?_drop, hd]; rfl
      rw [List.getElem?_eq_getElem hi] at h1
      exact Option.some_inj.mp h1
    have hS : prefSum sig (i + 1) = prefSum sig i + x := by
      rw [prefSum, prefSum, List.sum_take_succ sig i hi, hget]
    have hl : sig.drop (i + 1) = l := by
      rw [← List.tail_drop, hd, List.tail_cons]
    simp only [apOccAux]
    split
    next hfire =>
      obtain ⟨ihHead, ihChain⟩ :=
        ih (i + 1) (i + 1) 0 hl (le_refl _) (sub_self _).symm hthr
      constructor
      · intro b hb
        have hb' : i = b := by simpa using hb
        subst hb'
        refine ⟨le_refl _, by rw [hS]; linarith, by linarith⟩
      · refine List.chain'_cons'.mpr ⟨fun b hb => ?_, ihChain⟩
        obtain ⟨hb1, hb2, hb3⟩ := ihHead b hb
        exact ⟨by omega, hb2, hb3⟩
    next hfire =>
      have hlt' : acc + x < thr := lt_of_not_le hfire
      obtain ⟨ihHead, ihChain⟩ :=
        ih (i + 1) r (acc + x) hl (hr.trans (Nat.le_succ i))
          (by rw [hS, hacc]; ring) hlt'
      constructor
      · intro b hb
        obtain ⟨hb1, hb2, hb3⟩ := ihHead b hb
        exact ⟨(Nat.le_succ i).trans hb1, hb2, hb3⟩
      · exact ihChain

/-- C1: for the integrate-and-fire loop with a positive threshold, the first
recorded spike `b` satisfies `thr ≤ Σ sig[0..b]` and `Σ sig[0..b-1] < thr`, and
every pair of consecutive recorded spikes `(a, b)` satisfies `a < b`, the
accumulated sum over the gap `Σ sig[a+1..b]` is `≥ thr`, and the accumulated
sum immediately before the spike, `Σ sig[a+1..b-1]`, is `< thr`.  (Samples are
added unconditionally and the integral resets to `0` on each spike, so the
integral at index `b` is exactly the gap sum.) -/
theorem integrate_and_fire_gap_sum_spec (sig : List ℚ) (thr : ℚ) (hthr : 0 < thr) :
    (∀ b ∈ ((AP_Occurance_IF sig thr).tail).head?,
      thr ≤ sumFromTo sig 0 (b + 1) ∧ sumFromTo sig 0 b < thr) ∧
    List.Chain' (fun a b => a < b ∧
        thr ≤ sumFromTo sig (a + 1) (b + 1) ∧
        sumFromTo sig (a + 1) b < thr)
      ((AP_Occurance_IF sig thr).tail) := by
  obtain ⟨hHead, hChain⟩ :=
    apOccAux_gap_sums sig thr hthr sig 0 0 0 rfl (le_refl 0) (sub_self _).symm hthr
  simp only [AP_Occurance_IF, List.tail_cons]
  constructor
  · intro b hb
    obtain ⟨_, h2, h3⟩ := hHead b hb
    rw [sumFromTo_eq sig 0 (b + 1) (Nat.zero_le _), sumFromTo_eq sig 0 b (Nat.zero_le _)]
    exact ⟨h2, h3⟩
  · refine hChain.imp fun a b hab => ?_
    obtain ⟨h1, h2, h3⟩ := hab
    rw [sumFromTo_eq sig (a + 1) (b + 1) (by omega), sumFromTo_eq sig (a + 1) b (by omega)]
    exact ⟨h1, h2, h3⟩

/-- C1 (witness): with signal `[3, 2, 4, 1]` and threshold `5` the recorded
spikes are `[1, 3]`; the gap sum `sig[2] + sig[3] = 5 ≥ 5` and the sum just
before the second spike, `sig[2] = 4`, is `< 5`. -/
theorem integrate_and_fire_gap_sum_spec_witness :
    (0 : ℚ) < 5 ∧
    List.Chain' (fun a b => a < b ∧
        (5 : ℚ) ≤ sumFromTo [3, 2, 4, 1] (a + 1) (b + 1) ∧
        sumFromTo [3, 2, 4, 1] (a + 1) b < 5)
      ((AP_Occurance_IF [3, 2, 4, 1] 5).tail) :=
  ⟨by norm_num, (integrate_and_fire_gap_sum_spec [3, 2, 4, 1] 5 (by norm_num)).2⟩

/-! ### The pulse template -/

lemma zipWith_add_map {α : Type*} (F G : α → ℝ) : ∀ (l : List α),
    List.zipWith (· + ·) (l.map F) (l.map G) = l.map (fun x => F x + G x) := by
  intro l
  induction l with
  | nil => rfl
  | cons x l ih => simp [ih]

lemma linspace_length (a b : ℝ) (n : ℕ) : (linspace a b n).length = n := by
  rw [linspace]
  split_ifs with h0 h1
  · simp [h0]
  · simp [h1]
  · rw [List.length_map, List.length_range]

lemma linspace_eq_map (n : ℕ) (hn : 2 ≤ n) :
    linspace 0 (n : ℝ) n =
      (List.range n).map (fun i : ℕ => (i : ℝ) * (n : ℝ) / ((n : ℝ) - 1)) := by
  rw [linspace, if_neg (by omega), if_neg (by omega)]
  congr 1
  funext i
  ring

lemma AP_SinglePulse_eq_map (APDur : ℕ) (Ap An Wp Wn : ℝ) :
    AP_SinglePulse APDur Ap An Wp Wn =
      (linspace 0 (APDur : ℝ) APDur).map (fun x =>
        Ap * Real.exp (-(0.5) * ((x - 2) / Wp) ^ 2) +
        An * Real.exp (-(0.5) * ((x - 3) / Wn) ^ 2)) := by
  simp only [AP_SinglePulse]
  exact zipWith_add_map _ _ _

lemma AP_SinglePulse_length (APDur : ℕ) (Ap An Wp Wn : ℝ) :
    (AP_SinglePulse APDur Ap An Wp Wn).length = APDur := by
  rw [AP_SinglePulse_eq_map, List.length_map, linspace_length]

lemma AP_SinglePulse_getD (APDur : ℕ) (Ap An Wp Wn : ℝ) (t : ℕ)
    (hD : 2 ≤ APDur) (ht : t < APDur) :
    (AP_SinglePulse APDur Ap An Wp Wn).getD t 0 =
      Ap * Real.exp (-(0.5) * ((((t : ℝ) * APDur / ((APDur : ℝ) - 1)) - 2) / Wp) ^ 2) +
      An * Real.exp (-(0.5) * ((((t : ℝ) * APDur / ((APDur : ℝ) - 1)) - 3) / Wn) ^ 2) := by
  rw [AP_SinglePulse_eq_map, linspace_eq_map APDur hD, List.map_map,
    List.getD_eq_getElem?_getD, List.getElem?_map]
  simp [List.getElem?_range, ht, Function.comp]

/-- C7 (amended): the pulse shaper returns exactly `AP_Duration` samples for
every duration, and (for durations `≥ 2`) the sample at position `t` is the
two-Gaussian formula evaluated at the `t`-th `np.linspace` point
`t·D/(D−1)` — not at `t` itself — with the centres fixed at `2` and `3`
regardless of the duration. -/
theorem AP_SinglePulse_spec (APDur : ℕ) (Ap An Wp Wn : ℝ) :
    (AP_SinglePulse APDur Ap An Wp Wn).length = APDur ∧
    (2 ≤ APDur → ∀ t, t < APDur →
      (AP_SinglePulse APDur Ap An Wp Wn).getD t 0 =
        Ap * Real.exp (-(0.5) * ((((t : ℝ) * APDur / ((APDur : ℝ) - 1)) - 2) / Wp) ^ 2) +
        An * Real.exp (-(0.5) * ((((t : ℝ) * APDur / ((APDur : ℝ) - 1)) - 3) / Wn) ^ 2)) :=
  ⟨AP_SinglePulse_length _ _ _ _ _,
   fun hD t ht => AP_SinglePulse_getD _ _ _ _ _ _ hD ht⟩

/-- C7 (witness): the demo's parameters (`D = 5`, amplitudes `4` and `-0.4`,
widths `0.35` and `0.75`) instantiate the amended template specification at
sample position `1`. -/
theorem AP_SinglePulse_spec_witness :
    (2 ≤ 5 ∧ 1 < 5) ∧
    (AP_SinglePulse 5 4 (-0.4) 0.35 0.75).length = 5 ∧
    (AP_SinglePulse 5 4 (-0.4) 0.35 0.75).getD 1 0 =
      4 * Real.exp (-(0.5) * ((((1 : ℕ) : ℝ) * ((5 : ℕ) : ℝ) / (((5 : ℕ) : ℝ) - 1) - 2) / 0.35) ^ 2) +
      (-0.4) * Real.exp (-(0.5) * ((((1 : ℕ) : ℝ) * ((5 : ℕ) : ℝ) / (((5 : ℕ) : ℝ) - 1) - 3) / 0.75) ^ 2) :=
  ⟨by norm_num, (AP_SinglePulse_spec 5 4 (-0.4) 0.35 0.75).1,
   (AP_SinglePulse_spec 5 4 (-0.4) 0.35 0.75).2 (by norm_num) 1 (by norm_num)⟩

/-- C7 (counterexample): the claim that `pulse[t]` is the formula evaluated at
`t` itself fails: with duration `5`, amplitudes `1` and `0` and widths `1`, the
sample at position `1` is the formula at the linspace point `5/4`, and
`exp(-9/32) ≠ exp(-1/2)` by injectivity of `exp`. -/
theorem AP_SinglePulse_sample_claim_false :
    ¬ ((AP_SinglePulse 5 1 0 1 1).length = 5 ∧
      ∀ t, t < 5 → (AP_SinglePulse 5 1 0 1 1).getD t 0 =
        1 * Real.exp (-(0.5) * (((t : ℝ) - 2) / 1) ^ 2) +
        0 * Real.exp (-(0.5) * (((t : ℝ) - 3) / 1) ^ 2)) := by
  rintro ⟨-, h⟩
  have h1 := h 1 (by norm_num)
  have h2 := AP_SinglePulse_getD 5 1 0 1 1 1 (by norm_num) (by norm_num)
  rw [h1] at h2
  simp only [one_mul, zero_mul, add_zero] at h2
  have h3 := Real.exp_eq_exp.mp h2
  norm_num at h3
